import Mathlib

/-!
Verification development for the Khmer syllable reordering and
normalization program (`KhmerSyllableReorder.py`).

Text is modelled as a `List Nat` of Unicode code points.  Every Python
construct used by the program is embedded directly:

* `str.replace` with a one-code-point pattern is `replace1`;
  `str.replace` with a two-code-point pattern is `replace2`
  (Python scans left to right, skips past each replacement, and does
  not rescan the replacement text).
* the regex character classes are decidable predicates on code points;
* `re.split(r'(SYLLPAT)', text)` is `segment` (the syllable grammar is
  a deterministic greedy scanner: at a consonant or independent vowel a
  syllable starts and greedily consumes coeng+consonant clusters and
  runs of dependent vowels / diacritics / zero-width elements;
  everything between matches, kept by the capturing split, is a gap
  piece; empty pieces are discarded as in `[s for s in syll if s]`);
* `re.split(r'(CHUNKPAT)', tail)` is `chunkSplit` (a coeng run followed
  by a consonant/independent vowel and an optional register shifter is
  one chunk, any other character matches `.` as a one-character chunk;
  `.` does not match the newline, so runs of newlines are unmatched gap
  pieces, exactly as in Python);
* the `elif` chain classifying a chunk by `re.match` against the class
  patterns is `classify` (a `re.match` of a one-character class only
  inspects the first character of the chunk);
* `re.sub(COENG+, COENG, c)` is `collapseCoeng`;
* the in-place loop moving coeng+RO clusters to the end
  (`for i in range(len(coeng) - 1): ...`) is `roPass`, a fold of the
  loop body `roStep` over `List.range (l.length - 1)`;
* the duplicate-collapse loop (`if chunks[i] == chunks[i-1]:
  chunks[i-1] = ''`) is `dupCollapse`; since step `i` is the only step
  writing index `i - 1`, every comparison reads original values, which
  the structural recursion reproduces;
* the three `str.replace` vowel fusions are `fuse`.
-/

namespace KhmerSyllableReorder

/-- KHMER SIGN COENG, U+17D2. -/
def COENG : Nat := 0x17D2

/-- KHMER LETTER RO, U+179A. -/
def RO : Nat := 0x179A

/-- Consonants: `[ក-អ]`. -/
def isCons (c : Nat) : Bool := decide (0x1780 ≤ c) && decide (c ≤ 0x17A2)

/-- Independent vowels: `[ឣ-ឳ]`. -/
def isIndepVowel (c : Nat) : Bool := decide (0x17A3 ≤ c) && decide (c ≤ 0x17B3)

/-- The alternation `CONS|INDEPVOWEL` used by the syllable guard and grammars. -/
def isConsOrIndep (c : Nat) : Bool := isCons c || isIndepVowel c

/-- Dependent vowels: `[ា-ៅ]`. -/
def isDepVowel (c : Nat) : Bool := decide (0x17B6 ≤ c) && decide (c ≤ 0x17C5)

/-- Diacritics (broad class used by the syllable grammar):
`[ំ-៑៝]`. -/
def isDiacritic (c : Nat) : Bool :=
  (decide (0x17C6 ≤ c) && decide (c ≤ 0x17D1)) || decide (c = 0x17DD)

/-- Register shifters: `[៉៊]`. -/
def isRegShifter (c : Nat) : Bool := decide (c = 0x17C9) || decide (c = 0x17CA)

/-- Robat: `៌`. -/
def isRobat (c : Nat) : Bool := decide (c = 0x17CC)

/-- Zero-width elements: `[​-‍­⁣]`. -/
def isZeroWidth (c : Nat) : Bool :=
  (decide (0x200B ≤ c) && decide (c ≤ 0x200D)) || decide (c = 0x00AD) ||
    decide (c = 0x2063)

/-- Spacing diacritics: `[ះៈ]`. -/
def isSpacing (c : Nat) : Bool := decide (c = 0x17C7) || decide (c = 0x17C8)

/-- Non-spacing diacritics: `[ំ់៍-៑៝]`.
Note that the class skips U+17CC (robat). -/
def isNonspacing (c : Nat) : Bool :=
  decide (c = 0x17C6) || decide (c = 0x17CB) ||
    (decide (0x17CD ≤ c) && decide (c ≤ 0x17D1)) || decide (c = 0x17DD)

/-- `text.replace(a, r)` for a one-code-point pattern `a`: every
occurrence of `a` is replaced by `r`. -/
def replace1 (a : Nat) (r : List Nat) : List Nat → List Nat
  | [] => []
  | c :: cs => (if c = a then r else [c]) ++ replace1 a r cs

/-- `regularizeText`: the ordered list of global replacements of
obsolete, deprecated, invisible, and variant characters. -/
def regularizeText (text : List Nat) : List Nat :=
  let t1 := replace1 0x17A8 [0x17A7, 0x1780] text
  let t2 := replace1 0x17A3 [0x17A2] t1
  let t3 := replace1 0x17A4 [0x17A2, 0x17B6] t2
  let t4 := replace1 0x17B2 [0x17B1] t3
  let t5 := replace1 0x17B4 [] t4
  let t6 := replace1 0x17B5 [] t5
  let t7 := replace1 0x17DD [0x17D1] t6
  let t8 := replace1 0x17D3 [0x17C6] t7
  let t9 := replace1 0x17D8 [0x17D4, 0x179B, 0x17D4] t8
  t9

/-- One step of `re.split(r'(CHUNKPAT)', tail)`, written as a scanner.
The state is either `Sum.inl pend` (`pend` = the coeng run read so far,
still undecided) or `Sum.inr nl` (`nl` = the current run of newlines,
which `.` cannot match, forming an unmatched gap piece). -/
def chunkGo : List Nat ⊕ List Nat → List Nat → List (List Nat)
  | Sum.inl pend, [] => pend.map (fun x => [x])
  | Sum.inr nl, [] => [nl]
  | Sum.inl pend, c :: cs =>
    if c = COENG then chunkGo (Sum.inl (pend ++ [c])) cs
    else if c = 10 then pend.map (fun x => [x]) ++ chunkGo (Sum.inr [c]) cs
    else if pend.isEmpty = false && isConsOrIndep c then
      match cs with
      | e :: es =>
        if isRegShifter e then (pend ++ [c, e]) :: chunkGo (Sum.inl []) es
        else (pend ++ [c]) :: chunkGo (Sum.inl []) (e :: es)
      | [] => [pend ++ [c]]
    else pend.map (fun x => [x]) ++ [c] :: chunkGo (Sum.inl []) cs
  | Sum.inr nl, c :: cs =>
    if c = 10 then chunkGo (Sum.inr (nl ++ [c])) cs
    else if c = COENG then nl :: chunkGo (Sum.inl [c]) cs
    else nl :: [c] :: chunkGo (Sum.inl []) cs

/-- `re.split(r'(CHUNKPAT)', tail)` with empty pieces dropped. -/
def chunkSplit (tail : List Nat) : List (List Nat) := chunkGo (Sum.inl []) tail

/-- The six buckets of the classification `elif` chain. -/
inductive Bucket
  | dv
  | coeng
  | nonsp
  | sp
  | rs
  | robat
deriving DecidableEq

/-- The `elif` chain of `reorderSyll`, testing the chunk in order
against DEPVOWEL, COENG, NONSPACING, SPACING, REGSHIFTER, ROBAT.  Each
pattern is a single-character class, so `re.match` only inspects the
first character of the chunk. -/
def classify : List Nat → Option Bucket
  | [] => none
  | h :: _ =>
    if isDepVowel h then some Bucket.dv
    else if h = COENG then some Bucket.coeng
    else if isNonspacing h then some Bucket.nonsp
    else if isSpacing h then some Bucket.sp
    else if isRegShifter h then some Bucket.rs
    else if isRobat h then some Bucket.robat
    else none

/-- The chunks appended to one bucket, in original order (the Python
single pass appending to six lists is equivalent to six filters). -/
def bucketFilter (b : Bucket) (chunks : List (List Nat)) : List (List Nat) :=
  chunks.filter (fun ch => decide (classify ch = some b))

/-- `re.sub(COENG+, COENG, c)`: collapse every run of coeng marks down
to a single coeng. -/
def collapseCoeng : List Nat → List Nat
  | [] => []
  | [c] => [c]
  | c :: d :: rest =>
    if c = COENG ∧ d = COENG then collapseCoeng (d :: rest)
    else c :: collapseCoeng (d :: rest)

/-- Test of the loop body: `coeng[i] and re.match(COENG_RO, coeng[i])`.
The pattern is the two code points coeng, ro, so the match inspects the
first two characters; an empty or one-character entry fails. -/
def isRoChunk : List Nat → Bool
  | a :: b :: _ => decide (a = COENG) && decide (b = RO)
  | _ => false

/-- Body of the RO-relocation loop at index `i`:
`if coeng[i] and re.match(COENG_RO, coeng[i]): coeng.append(coeng[i]);
coeng[i] = ''`. -/
def roStep (l : List (List Nat)) (i : Nat) : List (List Nat) :=
  let c := l.getD i []
  if isRoChunk c then (l.set i []) ++ [c] else l

/-- The RO-relocation loop: `numCoeng = len(coeng) - 1;
for i in range(numCoeng): ...`.  The bound is computed before the loop
runs, and appended entries live at indices the loop never reaches. -/
def roPass (l : List (List Nat)) : List (List Nat) :=
  (List.range (l.length - 1)).foldl roStep l

/-- The duplicate-collapse loop: scanning left to right, an element
equal to its successor is emptied (the later occurrence is kept).
Step `i` of the Python loop is the only step writing index `i - 1`, so
every comparison reads original values. -/
def dupCollapse : List (List Nat) → List (List Nat)
  | [] => []
  | [c] => [c]
  | c :: d :: rest => (if d = c then [] else c) :: dupCollapse (d :: rest)

/-- `text.replace(a ++ b, r)` for a two-code-point pattern: scan left
to right, replace each non-overlapping occurrence of `a, b` by `r`, and
continue after the replacement. -/
def replace2 (a b r : Nat) : List Nat → List Nat
  | [] => []
  | [x] => [x]
  | x :: y :: rest =>
    if x = a ∧ y = b then r :: replace2 a b r rest
    else x :: replace2 a b r (y :: rest)

/-- The three post-reorder vowel fusions, in the implemented order:
U+17C1 U+17B8 → U+17BE, then U+17B8 U+17C1 → U+17BE, then
U+17C1 U+17B6 → U+17C4. -/
def fuse (s : List Nat) : List Nat :=
  replace2 0x17C1 0x17B6 0x17C4
    (replace2 0x17B8 0x17C1 0x17BE
      (replace2 0x17C1 0x17B8 0x17BE s))

/-- `reorderSyll`: reorder the characters of a single orthographic
syllable.  Applies only when the syllable has more than one character
and starts with a consonant or independent vowel. -/
def reorderSyll (syll : List Nat) : List Nat :=
  match syll with
  | b :: c :: rest =>
    if isConsOrIndep b then
      let chunks := chunkSplit (c :: rest)
      let dv := bucketFilter Bucket.dv chunks
      let coeng := (bucketFilter Bucket.coeng chunks).map collapseCoeng
      let nonsp := bucketFilter Bucket.nonsp chunks
      let sp := bucketFilter Bucket.sp chunks
      let rs := bucketFilter Bucket.rs chunks
      let robat := bucketFilter Bucket.robat chunks
      let coeng2 := roPass coeng
      let chunks2 := [[b]] ++ rs ++ robat ++ coeng2 ++ dv ++ nonsp ++ sp
      let chunks3 := (dupCollapse chunks2).filter (fun ch => !ch.isEmpty)
      fuse chunks3.flatten
    else syll
  | _ => syll

/-- One step of `re.split(r'(SYLLPAT)', text)`, written as a scanner.
The state is `Sum.inl gap` (accumulating an unmatched gap: a syllable
match can only start at a consonant or independent vowel) or
`Sum.inr (syl, pend)` (inside a syllable, `pend` = a coeng run not yet
completed by a consonant or independent vowel; if it never completes,
the syllable ends before it and the run is returned to the text). -/
def segGo : List Nat ⊕ List Nat × List Nat → List Nat → List (List Nat)
  | Sum.inl gap, [] => if gap.isEmpty then [] else [gap]
  | Sum.inr (syl, pend), [] =>
    [syl] ++ (if pend.isEmpty then [] else [pend])
  | Sum.inl gap, c :: cs =>
    if isConsOrIndep c then
      (if gap.isEmpty then [] else [gap]) ++ segGo (Sum.inr ([c], [])) cs
    else segGo (Sum.inl (gap ++ [c])) cs
  | Sum.inr (syl, pend), c :: cs =>
    if c = COENG then segGo (Sum.inr (syl, pend ++ [c])) cs
    else if pend.isEmpty then
      if isConsOrIndep c then [syl] ++ segGo (Sum.inr ([c], [])) cs
      else if isDepVowel c || isDiacritic c || isZeroWidth c then
        segGo (Sum.inr (syl ++ [c], [])) cs
      else [syl] ++ segGo (Sum.inl [c]) cs
    else
      if isConsOrIndep c then segGo (Sum.inr (syl ++ pend ++ [c], [])) cs
      else [syl] ++ segGo (Sum.inl (pend ++ [c])) cs

/-- `re.split(r'(SYLLPAT)', text)` with empty pieces dropped. -/
def segment (text : List Nat) : List (List Nat) := segGo (Sum.inl []) text

/-- `reorderText`: regularize, split into syllables, reorder each
syllable, and join. -/
def reorderText (text : List Nat) : List Nat :=
  ((segment (regularizeText text)).map reorderSyll).flatten

/-- Modelled from the spec for the refinement claim about fusion
ordering: the same three global replacements applied in a different
order (second fusion first), to compare with the implemented fixed
order of `fuse`. -/
def fuseSpecOrder (s : List Nat) : List Nat :=
  replace2 0x17C1 0x17B6 0x17C4
    (replace2 0x17C1 0x17B8 0x17BE
      (replace2 0x17B8 0x17C1 0x17BE s))

/-- The nine source code points of the regularization table, in the
order their replacement rules run. -/
def regSources : List Nat :=
  [0x17A8, 0x17A3, 0x17A4, 0x17B2, 0x17B4, 0x17B5, 0x17DD, 0x17D3, 0x17D8]

/-- Whether the two code points `a, b` occur adjacently in a string. -/
def hasPair (a b : Nat) : List Nat → Bool
  | x :: y :: rest => (decide (x = a) && decide (y = b)) || hasPair a b (y :: rest)
  | _ => false

/-- A consonant or independent vowel is exactly a code point in
U+1780–U+17B3. -/
theorem isConsOrIndep_iff {c : Nat} :
    isConsOrIndep c = true ↔ 0x1780 ≤ c ∧ c ≤ 0x17B3 := by
  simp [isConsOrIndep, isCons, isIndepVowel]
  omega

/-- A code point absent from a string is untouched by `replace1`. -/
theorem replace1_eq_of_not_mem {a : Nat} {r l : List Nat} (h : a ∉ l) :
    replace1 a r l = l := by
  induction l with
  | nil => rfl
  | cons x xs ih =>
    have hx : x ≠ a := fun hxa => h (hxa ▸ List.mem_cons_self x xs)
    simp only [replace1, if_neg hx, List.singleton_append, List.cons.injEq,
      true_and]
    exact ih (fun hm => h (List.mem_cons_of_mem x hm))

/-- Membership in the output of `replace1`: a code point either comes
from the replacement or survives from the input (and then differs from
the pattern). -/
theorem mem_replace1 {c a : Nat} {r l : List Nat}
    (h : c ∈ replace1 a r l) : c ∈ r ∨ (c ∈ l ∧ c ≠ a) := by
  induction l with
  | nil => cases h
  | cons x xs ih =>
    simp only [replace1, List.mem_append] at h
    rcases h with h | h
    · by_cases hx : x = a
      · rw [if_pos hx] at h
        exact Or.inl h
      · rw [if_neg hx] at h
        rcases List.mem_singleton.mp h with rfl
        exact Or.inr ⟨List.mem_cons_self c xs, hx⟩
    · rcases ih h with h | ⟨hm, hne⟩
      · exact Or.inl h
      · exact Or.inr ⟨List.mem_cons_of_mem x hm, hne⟩

/-- C10: no output of `regularize` contains any of the nine source code
points: each rule removes every occurrence of its source, and no later
rule's replacement text reintroduces an earlier or later source. -/
theorem c10_no_sources (t : List Nat) (c : Nat)
    (hc : c ∈ regularizeText t) : c ∉ regSources := by
  simp only [regularizeText] at hc
  rcases mem_replace1 hc with h | ⟨hc, h9⟩
  · fin_cases h <;> decide
  rcases mem_replace1 hc with h | ⟨hc, h8⟩
  · fin_cases h <;> decide
  rcases mem_replace1 hc with h | ⟨hc, h7⟩
  · fin_cases h <;> decide
  rcases mem_replace1 hc with h | ⟨hc, h6⟩
  · cases h
  rcases mem_replace1 hc with h | ⟨hc, h5⟩
  · cases h
  rcases mem_replace1 hc with h | ⟨hc, h4⟩
  · fin_cases h <;> decide
  rcases mem_replace1 hc with h | ⟨hc, h3⟩
  · fin_cases h <;> decide
  rcases mem_replace1 hc with h | ⟨hc, h2⟩
  · fin_cases h <;> decide
  rcases mem_replace1 hc with h | ⟨hc, h1⟩
  · fin_cases h <;> decide
  simp only [regSources, List.mem_cons, List.not_mem_nil, or_false]
  intro hor
  rcases hor with rfl | rfl | rfl | rfl | rfl | rfl | rfl | rfl | rfl
  · exact h1 rfl
  · exact h2 rfl
  · exact h3 rfl
  · exact h4 rfl
  · exact h5 rfl
  · exact h6 rfl
  · exact h7 rfl
  · exact h8 rfl
  · exact h9 rfl

/-- Witness for C10: U+17D4, present in the output of regularizing
U+17D8, is not a source code point. -/
theorem c10_no_sources_witness : (0x17D4 : Nat) ∉ regSources :=
  c10_no_sources [0x17D8] 0x17D4 (by decide)

/-- If a string contains no code point of U+1780–U+17DD, regularization
leaves it unchanged (every rule's source lies in that range). -/
theorem regularizeText_eq_of_no_khmer {s : List Nat}
    (h : ∀ c ∈ s, c < 0x1780 ∨ 0x17DD < c) : regularizeText s = s := by
  have hu : ∀ a : Nat, 0x1780 ≤ a → a ≤ 0x17DD → a ∉ s := by
    intro a h1 h2 ha
    rcases h a ha with h3 | h3 <;> omega
  simp only [regularizeText]
  rw [replace1_eq_of_not_mem (hu 0x17A8 (by norm_num) (by norm_num)),
    replace1_eq_of_not_mem (hu 0x17A3 (by norm_num) (by norm_num)),
    replace1_eq_of_not_mem (hu 0x17A4 (by norm_num) (by norm_num)),
    replace1_eq_of_not_mem (hu 0x17B2 (by norm_num) (by norm_num)),
    replace1_eq_of_not_mem (hu 0x17B4 (by norm_num) (by norm_num)),
    replace1_eq_of_not_mem (hu 0x17B5 (by norm_num) (by norm_num)),
    replace1_eq_of_not_mem (hu 0x17DD (by norm_num) (by norm_num)),
    replace1_eq_of_not_mem (hu 0x17D3 (by norm_num) (by norm_num)),
    replace1_eq_of_not_mem (hu 0x17D8 (by norm_num) (by norm_num))]

/-- If no character of the input can start a syllable, the whole input
is one gap piece of the split (or nothing, when empty). -/
theorem segGo_all_gap :
    ∀ (l gap : List Nat), (∀ c ∈ l, isConsOrIndep c = false) →
      segGo (Sum.inl gap) l = if (gap ++ l).isEmpty then [] else [gap ++ l] := by
  intro l
  induction l with
  | nil => intro gap _; simp [segGo]
  | cons c cs ih =>
    intro gap h
    have hc : isConsOrIndep c = false := h c (List.mem_cons_self c cs)
    have hcs : ∀ x ∈ cs, isConsOrIndep x = false :=
      fun x hx => h x (List.mem_cons_of_mem c hx)
    simp only [segGo, hc, Bool.false_eq_true, if_false, ih (gap ++ [c]) hcs]
    have h1 : gap ++ [c] ++ cs = gap ++ c :: cs := by simp
    rw [h1]

/-- Reading the list at the length of a prefix yields the next element. -/
theorem getD_append_length {α : Type} (a : List α) (x : α) (y : List α)
    (d : α) : (a ++ x :: y).getD a.length d = x := by
  induction a with
  | nil => rfl
  | cons h t ih =>
    simp only [List.cons_append, List.length_cons, List.getD_cons_succ]
    exact ih

/-- Writing the list at the length of a prefix replaces the next
element. -/
theorem set_append_length {α : Type} (a : List α) (x v : α) (y : List α) :
    (a ++ x :: y).set a.length v = a ++ v :: y := by
  induction a with
  | nil => rfl
  | cons h t ih =>
    simp only [List.cons_append, List.length_cons, List.set_cons_succ]
    rw [ih]

/-- Dropping all but one element of a nonempty list leaves its last
element. -/
theorem drop_length_sub_one {α : Type} :
    ∀ (l : List α) (d : α), l ≠ [] → l.drop (l.length - 1) = [l.getLastD d]
  | [], _, h => absurd rfl h
  | [x], d, _ => rfl
  | x :: y :: t, d, _ => by
    have h1 : (x :: y :: t).length - 1 = (y :: t).length - 1 + 1 := by
      simp
    rw [h1, List.drop_succ_cons, drop_length_sub_one (y :: t) x (by simp)]
    conv_rhs => rw [List.getLastD_cons, List.getLastD_cons]
    conv_lhs => rw [List.getLastD_cons]

/-- Invariant of the RO-relocation loop: after running the loop body on
the indices of the first `j` entries of `b` (placed after a processed
prefix `a`), those entries are emptied where they matched coeng+RO and
the matching entries are appended, in order, at the very end. -/
theorem roLoop_spec :
    ∀ (j : Nat) (a b : List (List Nat)), j ≤ b.length →
      (List.range' a.length j).foldl roStep (a ++ b) =
        a ++ ((b.take j).map fun c => if isRoChunk c then [] else c) ++
          b.drop j ++ (b.take j).filter isRoChunk := by
  intro j
  induction j with
  | zero =>
    intro a b _
    simp [List.range']
  | succ j ih =>
    intro a b hj
    cases b with
    | nil => exact absurd hj (by simp)
    | cons h bt =>
      have hjb : j ≤ bt.length := by
        simp only [List.length_cons] at hj
        omega
      rw [List.range'_succ, List.foldl_cons]
      cases hro : isRoChunk h with
      | true =>
        have hstep : roStep (a ++ h :: bt) a.length =
            (a ++ [[]]) ++ (bt ++ [h]) := by
          simp only [roStep, getD_append_length, hro, if_true]
          rw [set_append_length]
          simp
        rw [hstep]
        have hlen : a.length + 1 = (a ++ [([] : List Nat)]).length := by simp
        rw [hlen, ih (a ++ [[]]) (bt ++ [h]) (by simp; omega)]
        rw [List.take_append_of_le_length hjb,
          List.drop_append_of_le_length hjb]
        simp [hro, List.filter_cons, List.take_succ_cons,
          List.drop_succ_cons, List.append_assoc]
      | false =>
        have hstep : roStep (a ++ h :: bt) a.length = (a ++ [h]) ++ bt := by
          simp only [roStep, getD_append_length, hro, Bool.false_eq_true,
            if_false]
          simp
        rw [hstep]
        have hlen : a.length + 1 = (a ++ [h]).length := by simp
        rw [hlen, ih (a ++ [h]) bt hjb]
        simp [hro, List.filter_cons, List.take_succ_cons,
          List.drop_succ_cons, List.append_assoc]

/-- Closed form of the RO-relocation loop: entries before the last are
emptied where they match coeng+RO, the last entry is untouched, and the
matched entries are appended at the end in their original order. -/
theorem roPass_eq (l : List (List Nat)) :
    roPass l =
      (l.dropLast.map fun c => if isRoChunk c then [] else c) ++
        l.drop (l.length - 1) ++ l.dropLast.filter isRoChunk := by
  unfold roPass
  rw [List.range_eq_range']
  have h := roLoop_spec (l.length - 1) [] l (Nat.sub_le _ _)
  simp only [List.nil_append, List.length_nil] at h
  rw [h, List.dropLast_eq_take]

/-- Removing the emptied entries of the nulled prefix keeps exactly the
non-RO entries. -/
theorem filter_map_null (m : List (List Nat)) (hm : ∀ c ∈ m, c ≠ []) :
    ((m.map fun c => if isRoChunk c then [] else c).filter
        fun c => !c.isEmpty) =
      m.filter fun c => !isRoChunk c := by
  induction m with
  | nil => rfl
  | cons c t ih =>
    have hc : c ≠ [] := hm c (List.mem_cons_self c t)
    have ht : ∀ x ∈ t, x ≠ [] := fun x hx => hm x (List.mem_cons_of_mem c hx)
    cases hro : isRoChunk c with
    | true =>
      simp only [List.map_cons, hro, if_true, List.filter_cons]
      rw [ih ht]
      simp
    | false =>
      simp only [List.map_cons, hro, Bool.false_eq_true, if_false,
        List.filter_cons]
      have hne : c.isEmpty = false := List.isEmpty_eq_false.mpr hc
      rw [ih ht]
      simp [hne]

/-- C2 amended: among the coeng clusters, the clusters strictly before
the last one that are built on RO are appended after everything else in
their original relative order; a RO cluster in the last position is
left in place (and so precedes the relocated RO clusters); the other
clusters keep their order.  (The claim's statement that the relative
order of several RO clusters is always preserved fails when the last
cluster is itself an RO cluster.) -/
theorem c2_amended (l : List (List Nat)) (h1 : l ≠ []) (h2 : [] ∉ l) :
    (roPass l).filter (fun c => !c.isEmpty) =
      l.dropLast.filter (fun c => !isRoChunk c) ++ [l.getLastD []] ++
        l.dropLast.filter isRoChunk := by
  rw [roPass_eq, List.filter_append, List.filter_append]
  have hsub : ∀ c ∈ l.dropLast, c ≠ [] := by
    intro c hc hceq
    subst hceq
    exact h2 (List.dropLast_sublist l |>.subset hc)
  rw [filter_map_null l.dropLast hsub]
  rw [drop_length_sub_one l [] h1]
  have hmem : l.getLastD [] ∈ l := by
    have hd := drop_length_sub_one l ([] : List Nat) h1
    have hm : l.getLastD [] ∈ l.drop (l.length - 1) := by
      rw [hd]
      exact List.mem_singleton_self _
    exact List.drop_subset _ l hm
  have hlast : l.getLastD [] ≠ [] := by
    intro hceq
    rw [hceq] at hmem
    exact h2 hmem
  have hone : (([l.getLastD []] : List (List Nat)).filter
      fun c => !c.isEmpty) = [l.getLastD []] := by
    simp only [List.filter_cons, List.isEmpty_eq_false.mpr hlast,
      Bool.not_false, if_true, List.filter_nil]
  have hfilter2 : ((l.dropLast.filter isRoChunk).filter
      fun c => !c.isEmpty) = l.dropLast.filter isRoChunk := by
    apply List.filter_eq_self.mpr
    intro c hc
    have hro := List.of_mem_filter hc
    have hc0 : c ≠ [] := by
      intro hc0
      subst hc0
      exact absurd hro (by decide)
    simp [List.isEmpty_eq_false.mpr hc0]
  rw [hone, hfilter2]

/-- Witness for C2 amended: two coeng clusters, RO-based then
non-RO-based; the RO cluster is relocated after the other one. -/
theorem c2_amended_witness :
    (roPass [[0x17D2, 0x179A], [0x17D2, 0x1781]]).filter
        (fun c => !c.isEmpty) =
      [[0x17D2, 0x1781], [0x17D2, 0x179A]] :=
  (c2_amended [[0x17D2, 0x179A], [0x17D2, 0x1781]] (by decide)
    (by decide)).trans (by decide)

/-- The adjacency test ignores the head of a list. -/
theorem hasPair_tail {a b x : Nat} {l : List Nat}
    (h : hasPair a b (x :: l) = false) : hasPair a b l = false := by
  cases l with
  | nil => rfl
  | cons y r =>
    simp only [hasPair, Bool.or_eq_false_iff] at h
    exact h.2

/-- If the head cannot pair with the next element, the adjacency test
reduces to the tail. -/
theorem hasPair_cons_of_not {a b x : Nat} {l : List Nat}
    (h : ∀ z t, l = z :: t → ¬(x = a ∧ z = b)) :
    hasPair a b (x :: l) = hasPair a b l := by
  cases l with
  | nil => rfl
  | cons y r =>
    have hy := h y r rfl
    have hfalse : (decide (x = a) && decide (y = b)) = false := by
      rcases Decidable.em (x = a) with hx | hx
      · rcases Decidable.em (y = b) with hyb | hyb
        · exact absurd ⟨hx, hyb⟩ hy
        · simp [hyb]
      · simp [hx]
    simp only [hasPair, hfalse, Bool.false_or]

/-- `replace2` maps a nonempty list to a nonempty list whose head is
the old head or the replacement character. -/
theorem replace2_cons_shape (a b r y : Nat) (l : List Nat) :
    ∃ z t, replace2 a b r (y :: l) = z :: t ∧ (z = y ∨ z = r) := by
  cases l with
  | nil => exact ⟨y, [], rfl, Or.inl rfl⟩
  | cons w rest =>
    by_cases h : y = a ∧ w = b
    · exact ⟨r, replace2 a b r rest, by simp [replace2, h], Or.inr rfl⟩
    · exact ⟨y, replace2 a b r (w :: rest), by simp [replace2, h], Or.inl rfl⟩

/-- After `replace2 a b r`, the pattern `a, b` no longer occurs,
provided the replacement character differs from both pattern
characters. -/
theorem hasPair_replace2_self (a b r : Nat) (ha : r ≠ a) (hb : r ≠ b) :
    ∀ l : List Nat, hasPair a b (replace2 a b r l) = false
  | [] => rfl
  | [_] => rfl
  | x :: y :: rest => by
    by_cases h : x = a ∧ y = b
    · rw [show replace2 a b r (x :: y :: rest) = r :: replace2 a b r rest from
        by simp [replace2, h]]
      rw [hasPair_cons_of_not (fun z t _ hp => ha hp.1)]
      exact hasPair_replace2_self a b r ha hb rest
    · rw [show replace2 a b r (x :: y :: rest) =
          x :: replace2 a b r (y :: rest) from by simp [replace2, h]]
      obtain ⟨z, t, heq, hz⟩ := replace2_cons_shape a b r y rest
      rw [heq]
      rw [hasPair_cons_of_not ?hcond]
      case hcond =>
        intro z2 t2 hzt hp
        rcases hzt with ⟨⟩
        rcases hz with rfl | rfl
        · exact h hp
        · exact hb hp.2
      rw [← heq]
      exact hasPair_replace2_self a b r ha hb (y :: rest)

/-- `replace2` with any pattern cannot create an occurrence of `a, b`
when the replacement character differs from both `a` and `b`. -/
theorem hasPair_replace2_other (a b p q r : Nat) (ha : r ≠ a) (hb : r ≠ b) :
    ∀ l : List Nat, hasPair a b l = false →
      hasPair a b (replace2 p q r l) = false
  | [], _ => rfl
  | [_], _ => rfl
  | x :: y :: rest, h => by
    have hcomp : (decide (x = a) && decide (y = b)) = false ∧
        hasPair a b (y :: rest) = false := by
      simpa only [hasPair, Bool.or_eq_false_iff] using h
    have hxy : ¬(x = a ∧ y = b) := by
      intro hp
      simp [hp.1, hp.2] at hcomp
    by_cases hm : x = p ∧ y = q
    · rw [show replace2 p q r (x :: y :: rest) = r :: replace2 p q r rest from
        by simp [replace2, hm]]
      rw [hasPair_cons_of_not (fun z t _ hp => ha hp.1)]
      exact hasPair_replace2_other a b p q r ha hb rest
        (hasPair_tail hcomp.2)
    · rw [show replace2 p q r (x :: y :: rest) =
          x :: replace2 p q r (y :: rest) from by simp [replace2, hm]]
      obtain ⟨z, t, heq, hz⟩ := replace2_cons_shape p q r y rest
      rw [heq]
      rw [hasPair_cons_of_not ?hcond2]
      case hcond2 =>
        intro z2 t2 hzt hp
        rcases hzt with ⟨⟩
        rcases hz with rfl | rfl
        · exact hxy hp
        · exact hb hp.2
      rw [← heq]
      exact hasPair_replace2_other a b p q r ha hb (y :: rest) hcomp.2

/-- On a list without the pattern, `replace2` is the identity. -/
theorem replace2_eq_of_no_pair (a b r : Nat) :
    ∀ l : List Nat, hasPair a b l = false → replace2 a b r l = l
  | [], _ => rfl
  | [_], _ => rfl
  | x :: y :: rest, h => by
    have hcomp : (decide (x = a) && decide (y = b)) = false ∧
        hasPair a b (y :: rest) = false := by
      simpa only [hasPair, Bool.or_eq_false_iff] using h
    have hxy : ¬(x = a ∧ y = b) := by
      intro hp
      simp [hp.1, hp.2] at hcomp
    rw [show replace2 a b r (x :: y :: rest) =
        x :: replace2 a b r (y :: rest) from by simp [replace2, hxy]]
    rw [replace2_eq_of_no_pair a b r (y :: rest) hcomp.2]

/-- C6 amended: the three fusions do not commute (their sources
overlap), but no fusion target occurs in any fusion source, so the
implemented composite never re-triggers: `fuse` is idempotent. -/
theorem c6_amended (s : List Nat) : fuse (fuse s) = fuse s := by
  have e1 : hasPair 0x17C1 0x17B8 (fuse s) = false := by
    unfold fuse
    exact hasPair_replace2_other _ _ _ _ _ (by norm_num) (by norm_num) _
      (hasPair_replace2_other _ _ _ _ _ (by norm_num) (by norm_num) _
        (hasPair_replace2_self _ _ _ (by norm_num) (by norm_num) _))
  have e2 : hasPair 0x17B8 0x17C1 (fuse s) = false := by
    unfold fuse
    exact hasPair_replace2_other _ _ _ _ _ (by norm_num) (by norm_num) _
      (hasPair_replace2_self _ _ _ (by norm_num) (by norm_num) _)
  have e3 : hasPair 0x17C1 0x17B6 (fuse s) = false :=
    hasPair_replace2_self _ _ _ (by norm_num) (by norm_num) _
  show replace2 0x17C1 0x17B6 0x17C4
      (replace2 0x17B8 0x17C1 0x17BE
        (replace2 0x17C1 0x17B8 0x17BE (fuse s))) = fuse s
  rw [replace2_eq_of_no_pair _ _ _ _ e1, replace2_eq_of_no_pair _ _ _ _ e2,
    replace2_eq_of_no_pair _ _ _ _ e3]

/-- Flattening a list of singletons recovers the list. -/
theorem flatten_map_singleton (p : List Nat) :
    (p.map fun x => [x]).flatten = p := by
  induction p with
  | nil => rfl
  | cons c t ih => simp [ih]

/-- The chunk split is lossless: the chunks concatenate back to the
pending run followed by the unread input. -/
theorem chunkGo_flatten (st : List Nat ⊕ List Nat) (l : List Nat) :
    (chunkGo st l).flatten =
      (match st with | Sum.inl p => p | Sum.inr n => n) ++ l := by
  induction st, l using chunkGo.induct <;>
    (unfold chunkGo; simp_all [flatten_map_singleton]) <;>
    (try (split <;> simp_all [flatten_map_singleton]))

/-- The chunks of a syllable tail concatenate back to the tail. -/
theorem chunkSplit_flatten (tail : List Nat) :
    (chunkSplit tail).flatten = tail := by
  have h := chunkGo_flatten (Sum.inl []) tail
  simpa [chunkSplit] using h

/-- The syllable split is lossless: the pieces concatenate back to the
state content followed by the unread input. -/
theorem segGo_flatten (st : List Nat ⊕ List Nat × List Nat) (l : List Nat) :
    (segGo st l).flatten =
      (match st with
        | Sum.inl g => g
        | Sum.inr (syl, pend) => syl ++ pend) ++ l := by
  induction st, l using segGo.induct <;>
    (unfold segGo; simp_all) <;>
    (try (split <;> simp_all))

/-- The syllable pieces concatenate back to the text. -/
theorem segment_flatten (text : List Nat) :
    (segment text).flatten = text := by
  have h := segGo_flatten (Sum.inl []) text
  simpa [segment] using h

/-- Collapsing coeng runs never lengthens a chunk. -/
theorem collapseCoeng_length : ∀ l : List Nat,
    (collapseCoeng l).length ≤ l.length
  | [] => le_refl _
  | [_] => le_refl _
  | c :: d :: rest => by
    have ih := collapseCoeng_length (d :: rest)
    by_cases h : c = COENG ∧ d = COENG
    · rw [show collapseCoeng (c :: d :: rest) = collapseCoeng (d :: rest)
        from by simp [collapseCoeng, h]]
      simp only [List.length_cons] at ih ⊢
      omega
    · rw [show collapseCoeng (c :: d :: rest) = c :: collapseCoeng (d :: rest)
        from by simp [collapseCoeng, h]]
      simp only [List.length_cons] at ih ⊢
      omega

/-- One step of a bucket filter. -/
theorem bucketFilter_cons (b : Bucket) (c : List Nat) (t : List (List Nat)) :
    bucketFilter b (c :: t) =
      if classify c = some b then c :: bucketFilter b t
      else bucketFilter b t := by
  simp only [bucketFilter, List.filter_cons]
  by_cases h : classify c = some b
  · simp [h]
  · simp [h]

/-- Each chunk lands in at most one bucket, so the six buckets together
are no longer than the chunk list (the coeng bucket may shrink by the
coeng-run collapse; unclassified chunks are dropped). -/
theorem buckets_flatten_length (chunks : List (List Nat)) :
    (bucketFilter Bucket.rs chunks).flatten.length +
        (bucketFilter Bucket.robat chunks).flatten.length +
        ((bucketFilter Bucket.coeng chunks).map collapseCoeng).flatten.length +
        (bucketFilter Bucket.dv chunks).flatten.length +
        (bucketFilter Bucket.nonsp chunks).flatten.length +
        (bucketFilter Bucket.sp chunks).flatten.length ≤
      chunks.flatten.length := by
  induction chunks with
  | nil => simp [bucketFilter]
  | cons c t ih =>
    have hcc := collapseCoeng_length c
    rw [bucketFilter_cons, bucketFilter_cons, bucketFilter_cons,
      bucketFilter_cons, bucketFilter_cons, bucketFilter_cons]
    cases hcl : classify c with
    | none =>
      simp only [hcl, reduceCtorEq, if_false, List.flatten_cons,
        List.length_append]
      omega
    | some b =>
      cases b <;>
        · simp only [hcl, Option.some.injEq, reduceCtorEq, if_true, if_false,
            List.map_cons, List.flatten_cons, List.length_append]
          omega

/-- The nulled prefix and the relocated RO entries together carry
exactly the characters of the original entries. -/
theorem map_null_filter_length (m : List (List Nat)) :
    ((m.map fun c => if isRoChunk c then [] else c).flatten).length +
        ((m.filter isRoChunk).flatten).length =
      m.flatten.length := by
  induction m with
  | nil => rfl
  | cons c t ih =>
    cases hro : isRoChunk c <;>
      · simp [hro, List.filter_cons, List.flatten_cons,
          -List.length_flatten]
        omega

/-- The RO relocation permutes characters: total length is unchanged. -/
theorem roPass_flatten_length (l : List (List Nat)) :
    (roPass l).flatten.length = l.flatten.length := by
  rw [roPass_eq]
  have h1 := map_null_filter_length l.dropLast
  have h2 : l.dropLast.flatten.length +
      (l.drop (l.length - 1)).flatten.length = l.flatten.length := by
    rw [List.dropLast_eq_take]
    conv_rhs => rw [← List.take_append_drop (l.length - 1) l]
    rw [List.flatten_append, List.length_append]
  rw [List.flatten_append, List.flatten_append, List.length_append,
    List.length_append]
  omega

/-- Duplicate collapse only deletes elements. -/
theorem dupCollapse_flatten_length : ∀ L : List (List Nat),
    (dupCollapse L).flatten.length ≤ L.flatten.length
  | [] => le_refl _
  | [_] => le_refl _
  | c :: d :: rest => by
    have ih := dupCollapse_flatten_length (d :: rest)
    by_cases h : d = c
    · rw [show dupCollapse (c :: d :: rest) = [] :: dupCollapse (d :: rest)
        from by simp [dupCollapse, h]]
      simp only [List.flatten_cons, List.length_append, List.nil_append]
        at ih ⊢
      omega
    · rw [show dupCollapse (c :: d :: rest) = c :: dupCollapse (d :: rest)
        from by simp [dupCollapse, h]]
      simp only [List.flatten_cons, List.length_append] at ih ⊢
      omega

/-- Removing empty entries does not change the concatenation. -/
theorem filter_isEmpty_flatten (L : List (List Nat)) :
    (L.filter fun c => !c.isEmpty).flatten = L.flatten := by
  induction L with
  | nil => rfl
  | cons c t ih =>
    cases hc : c.isEmpty with
    | false => simp [List.filter_cons, hc, ih]
    | true =>
      have hcc : c = [] := List.isEmpty_iff.mp hc
      subst hcc
      simp [List.filter_cons, ih]

/-- A two-for-one replacement never lengthens a string. -/
theorem replace2_length (a b r : Nat) : ∀ l : List Nat,
    (replace2 a b r l).length ≤ l.length
  | [] => le_refl _
  | [_] => le_refl _
  | x :: y :: rest => by
    by_cases h : x = a ∧ y = b
    · rw [show replace2 a b r (x :: y :: rest) = r :: replace2 a b r rest
        from by simp [replace2, h]]
      have ih := replace2_length a b r rest
      simp only [List.length_cons]
      omega
    · rw [show replace2 a b r (x :: y :: rest) =
          x :: replace2 a b r (y :: rest) from by simp [replace2, h]]
      have ih := replace2_length a b r (y :: rest)
      simp only [List.length_cons] at ih ⊢
      omega

/-- The fusions never lengthen a syllable. -/
theorem fuse_length (s : List Nat) : (fuse s).length ≤ s.length := by
  unfold fuse
  exact le_trans (replace2_length _ _ _ _)
    (le_trans (replace2_length _ _ _ _) (replace2_length _ _ _ _))

/-- The per-syllable reorder never lengthens a syllable. -/
theorem reorderSyll_length : ∀ s : List Nat,
    (reorderSyll s).length ≤ s.length
  | [] => le_refl _
  | [_] => le_refl _
  | b :: c :: rest => by
    cases hb : isConsOrIndep b with
    | false => simp [reorderSyll, hb]
    | true =>
      simp only [reorderSyll, hb, if_true]
      refine le_trans (fuse_length _) ?_
      rw [filter_isEmpty_flatten]
      refine le_trans (dupCollapse_flatten_length _) ?_
      have h6 := buckets_flatten_length (chunkSplit (c :: rest))
      have hro := roPass_flatten_length
        ((bucketFilter Bucket.coeng (chunkSplit (c :: rest))).map
          collapseCoeng)
      have hK : (chunkSplit (c :: rest)).flatten.length =
          (c :: rest).length := by rw [chunkSplit_flatten]
      simp only [List.flatten_append, List.flatten_cons, List.flatten_nil,
        List.length_append, List.length_cons, List.length_nil,
        List.append_nil] at h6 hro hK ⊢
      omega

/-- Reordering each piece never lengthens the concatenation. -/
theorem map_reorderSyll_length (L : List (List Nat)) :
    ((L.map reorderSyll).flatten).length ≤ L.flatten.length := by
  induction L with
  | nil => exact le_refl _
  | cons c t ih =>
    have h := reorderSyll_length c
    simp only [List.map_cons, List.flatten_cons, List.length_append]
    omega

/-- C5 amended: segmentation and per-syllable reordering never add
code points; the output of `reorderText` is at most as long as the
regularized input (it can be shorter: duplicate collapse, dropped
unclassified chunks such as zero-width elements, and the vowel fusions
all delete code points, beyond the length changes of regularization). -/
theorem c5_amended (t : List Nat) :
    (reorderText t).length ≤ (regularizeText t).length := by
  unfold reorderText
  have h := map_reorderSyll_length (segment (regularizeText t))
  rw [segment_flatten] at h
  exact h

/-- Every classified chunk is nonempty and starts at or above U+17B6:
all six class tests only accept first characters in U+17B6–U+17DD. -/
theorem classify_some_head {c : List Nat} {B : Bucket}
    (h : classify c = some B) : ∃ x xs, c = x :: xs ∧ 0x17B6 ≤ x := by
  match c with
  | [] => simp [classify] at h
  | x :: xs =>
    refine ⟨x, xs, rfl, ?_⟩
    simp only [classify] at h
    split_ifs at h with h1 h2 h3 h4 h5 h6
    · simp [isDepVowel] at h1
      omega
    · simp [COENG] at h2
      omega
    · simp [isNonspacing] at h3
      omega
    · simp [isSpacing] at h4
      omega
    · simp [isRegShifter] at h5
      omega
    · simp [isRobat] at h6
      omega

/-- Membership in a bucket determines the chunk's classification. -/
theorem classify_of_mem_bucketFilter {B : Bucket} {chs : List (List Nat)}
    {x : List Nat} (h : x ∈ bucketFilter B chs) : classify x = some B := by
  have hp := List.of_mem_filter h
  simpa using hp

/-- Collapsing coeng runs preserves the first character. -/
theorem collapseCoeng_head : ∀ (x : Nat) (xs : List Nat),
    ∃ ys, collapseCoeng (x :: xs) = x :: ys
  | _, [] => ⟨[], rfl⟩
  | x, y :: t => by
    by_cases h : x = COENG ∧ y = COENG
    · obtain ⟨ys, hy⟩ := collapseCoeng_head y t
      refine ⟨ys, ?_⟩
      rw [show collapseCoeng (x :: y :: t) = collapseCoeng (y :: t) from
        by simp [collapseCoeng, h], hy, h.1, h.2]
    · exact ⟨collapseCoeng (y :: t), by simp [collapseCoeng, h]⟩

/-- Every entry of the relocated coeng bucket is an original entry or
an emptied slot. -/
theorem mem_roPass {x : List Nat} {l : List (List Nat)}
    (h : x ∈ roPass l) : x ∈ l ∨ x = [] := by
  rw [roPass_eq] at h
  simp only [List.mem_append] at h
  rcases h with (h | h) | h
  · rcases List.mem_map.mp h with ⟨c, hc, hceq⟩
    have hcl : c ∈ l := (List.dropLast_sublist l).subset hc
    by_cases hro : isRoChunk c = true
    · right
      rw [← hceq]
      simp [hro]
    · left
      rw [← hceq]
      simpa [hro] using hcl
  · exact Or.inl (List.drop_subset _ l h)
  · exact Or.inl ((List.dropLast_sublist l).subset (List.mem_of_mem_filter h))

/-- A classified chunk never equals the one-character base chunk of a
real syllable: its first character is at least U+17B6 while the base is
at most U+17B3. -/
theorem ne_base_of_classify {x : List Nat} {b : Nat} (hb : b ≤ 0x17B3)
    {B : Bucket} (h : classify x = some B) : x ≠ [b] := by
  obtain ⟨h1, hs, heq, hge⟩ := classify_some_head h
  subst heq
  intro he
  rcases List.cons.injEq h1 hs b [] ▸ he with ⟨rfl, -⟩
  omega

/-- Duplicate collapse keeps a head that differs from every later
element. -/
theorem dupCollapse_cons_ne {a : List Nat} {R : List (List Nat)}
    (h : ∀ x ∈ R, x ≠ a) : dupCollapse (a :: R) = a :: dupCollapse R := by
  cases R with
  | nil => rfl
  | cons d r =>
    have hd : d ≠ a := h d (List.mem_cons_self d r)
    simp [dupCollapse, hd]

/-- A head that is not the first pattern character passes through
`replace2`. -/
theorem replace2_cons_ne (a b2 r x : Nat) (l : List Nat) (hx : x ≠ a) :
    replace2 a b2 r (x :: l) = x :: replace2 a b2 r l := by
  cases l with
  | nil => rfl
  | cons y t =>
    simp only [replace2, if_neg (fun hp => hx (And.left hp))]

/-- A head that can start no fusion source passes through `fuse`. -/
theorem fuse_cons (x : Nat) (l : List Nat) (h1 : x ≠ 0x17C1)
    (h2 : x ≠ 0x17B8) : fuse (x :: l) = x :: fuse l := by
  unfold fuse
  rw [replace2_cons_ne _ _ _ _ _ h1, replace2_cons_ne _ _ _ _ _ h2,
    replace2_cons_ne _ _ _ _ _ h1]

/-- C9: on a real syllable (length greater than one, starting with a
consonant or independent vowel) the reorder returns a nonempty string
that starts with the same base character: no bucket chunk can equal the
base chunk, so duplicate collapse keeps it, and no fusion source starts
with a base-range character. -/
theorem c9_base_preserved (b : Nat) (t : List Nat)
    (hb : isConsOrIndep b = true) (ht : t ≠ []) :
    ∃ r, reorderSyll (b :: t) = b :: r := by
  obtain ⟨c, rest, rfl⟩ : ∃ c rest, t = c :: rest := by
    cases t with
    | nil => exact absurd rfl ht
    | cons c rest => exact ⟨c, rest, rfl⟩
  have hble : b ≤ 0x17B3 := (isConsOrIndep_iff.mp hb).2
  simp only [reorderSyll, hb, if_true]
  generalize chunkSplit (c :: rest) = K
  have hmem : ∀ x ∈ bucketFilter Bucket.rs K ++ bucketFilter Bucket.robat K ++
      roPass ((bucketFilter Bucket.coeng K).map collapseCoeng) ++
      bucketFilter Bucket.dv K ++ bucketFilter Bucket.nonsp K ++
      bucketFilter Bucket.sp K, x ≠ [b] := by
    intro x hx
    simp only [List.mem_append] at hx
    rcases hx with ((((hx | hx) | hx) | hx) | hx) | hx
    · exact ne_base_of_classify hble (classify_of_mem_bucketFilter hx)
    · exact ne_base_of_classify hble (classify_of_mem_bucketFilter hx)
    · rcases mem_roPass hx with hx | rfl
      · rcases List.mem_map.mp hx with ⟨y, hy, rfl⟩
        have hcy := classify_of_mem_bucketFilter hy
        obtain ⟨h1, hs, heq, hge⟩ := classify_some_head hcy
        subst heq
        obtain ⟨ys, hys⟩ := collapseCoeng_head h1 hs
        rw [hys]
        intro he
        rcases List.cons.injEq h1 ys b [] ▸ he with ⟨rfl, -⟩
        omega
      · simp
    · exact ne_base_of_classify hble (classify_of_mem_bucketFilter hx)
    · exact ne_base_of_classify hble (classify_of_mem_bucketFilter hx)
    · exact ne_base_of_classify hble (classify_of_mem_bucketFilter hx)
  rw [show ([[b]] : List (List Nat)) ++ bucketFilter Bucket.rs K ++
      bucketFilter Bucket.robat K ++
      roPass ((bucketFilter Bucket.coeng K).map collapseCoeng) ++
      bucketFilter Bucket.dv K ++ bucketFilter Bucket.nonsp K ++
      bucketFilter Bucket.sp K =
      [b] :: (bucketFilter Bucket.rs K ++ bucketFilter Bucket.robat K ++
        roPass ((bucketFilter Bucket.coeng K).map collapseCoeng) ++
        bucketFilter Bucket.dv K ++ bucketFilter Bucket.nonsp K ++
        bucketFilter Bucket.sp K) from by simp [List.append_assoc]]
  rw [dupCollapse_cons_ne hmem]
  rw [show (([b] : List Nat) :: dupCollapse (bucketFilter Bucket.rs K ++
      bucketFilter Bucket.robat K ++
      roPass ((bucketFilter Bucket.coeng K).map collapseCoeng) ++
      bucketFilter Bucket.dv K ++ bucketFilter Bucket.nonsp K ++
      bucketFilter Bucket.sp K)).filter (fun ch => !ch.isEmpty) =
      [b] :: (dupCollapse (bucketFilter Bucket.rs K ++
        bucketFilter Bucket.robat K ++
        roPass ((bucketFilter Bucket.coeng K).map collapseCoeng) ++
        bucketFilter Bucket.dv K ++ bucketFilter Bucket.nonsp K ++
        bucketFilter Bucket.sp K)).filter (fun ch => !ch.isEmpty) from by
    simp [List.filter_cons]]
  rw [List.flatten_cons, List.singleton_append]
  rw [fuse_cons b _ (by omega) (by omega)]
  exact ⟨_, rfl⟩

/-- Witness for C9 at the syllable KA + AA. -/
theorem c9_base_preserved_witness :
    ∃ r, reorderSyll [0x1780, 0x17B6] = 0x1780 :: r :=
  c9_base_preserved 0x1780 [0x17B6] (by decide) (by decide)

/-- C7: text containing no code point of U+1780–U+17DD passes through
`reorderText` unchanged: regularization touches nothing, no syllable
match can start, and the single gap piece fails the reorder guard. -/
theorem c7_nonkhmer_passthrough (s : List Nat)
    (h : ∀ c ∈ s, c < 0x1780 ∨ 0x17DD < c) : reorderText s = s := by
  unfold reorderText
  rw [regularizeText_eq_of_no_khmer h]
  have hs : ∀ c ∈ s, isConsOrIndep c = false := by
    intro c hc
    rcases h c hc with h1 | h1 <;>
      · rw [← Bool.not_eq_true, isConsOrIndep_iff]; omega
  have hseg := segGo_all_gap s [] hs
  rw [List.nil_append] at hseg
  show (List.map reorderSyll (segment s)).flatten = s
  rw [show segment s = segGo (Sum.inl []) s from rfl, hseg]
  cases s with
  | nil => rfl
  | cons c cs =>
    have hempty : (c :: cs).isEmpty = false := rfl
    rw [hempty]
    have hid : reorderSyll (c :: cs) = c :: cs := by
      cases cs with
      | nil => rfl
      | cons d rest =>
        simp [reorderSyll, hs c (List.mem_cons_self c (d :: rest))]
    simp [hid]

/-- Witness for C7 at a concrete ASCII string. -/
theorem c7_nonkhmer_passthrough_witness :
    reorderText [0x61, 0x62, 0x20] = [0x61, 0x62, 0x20] :=
  c7_nonkhmer_passthrough [0x61, 0x62, 0x20] (by decide)

/-- C1: `reorderText` is not idempotent.  On the syllable
KA, E (U+17C1), II (U+17B8), OE (U+17BE) the first pass reassembles to
KA U+17C1 U+17B8 U+17BE and the fusion U+17C1 U+17B8 → U+17BE then
produces two adjacent U+17BE — the duplicate collapse has already run —
so the second pass collapses them and the result changes. -/
theorem c1_reorderText_not_idempotent :
    reorderText (reorderText [0x1780, 0x17C1, 0x17B8, 0x17BE]) ≠
      reorderText [0x1780, 0x17C1, 0x17B8, 0x17BE] := by decide

/-- C2 counterexample: a real syllable whose two coeng clusters are
both built on RO (distinguished by their register shifters).  Keeping
the relative order of RO clusters would return the syllable unchanged,
but the relocation loop reads index 0 after computing the bound from
the un-mutated list, so the two clusters swap. -/
theorem c2_counterexample :
    reorderSyll [0x1780, 0x17D2, 0x179A, 0x17C9, 0x17D2, 0x179A, 0x17CA] =
        [0x1780, 0x17D2, 0x179A, 0x17CA, 0x17D2, 0x179A, 0x17C9] ∧
      reorderSyll [0x1780, 0x17D2, 0x179A, 0x17C9, 0x17D2, 0x179A, 0x17CA] ≠
        [0x1780, 0x17D2, 0x179A, 0x17C9, 0x17D2, 0x179A, 0x17CA] := by decide

/-- C3 counterexample: `regularize` does not map U+17D8 to
U+17D4 U+17BB U+17D4. -/
theorem c3_counterexample :
    regularizeText [0x17D8] ≠ [0x17D4, 0x17BB, 0x17D4] := by decide

/-- C3 amended: `regularize` maps the deprecated trigraph U+17D8 to the
three code points U+17D4 U+179B U+17D4 (KHAN, LO, KHAN — ។ល។). -/
theorem c3_amended :
    regularizeText [0x17D8] = [0x17D4, 0x179B, 0x17D4] := by decide

/-- C4 counterexample: in the real syllable KA, robat (U+17CC),
AA (U+17B6) the robat chunk is not classified as a non-spacing
diacritic and does not end up after the dependent vowel. -/
theorem c4_counterexample :
    reorderSyll [0x1780, 0x17CC, 0x17B6] ≠ [0x1780, 0x17B6, 0x17CC] ∧
      classify [0x17CC] ≠ some Bucket.nonsp := by decide

/-- C4 amended: the program's non-spacing class is U+17C6, U+17CB,
U+17CD–U+17D1, U+17DD — it excludes robat U+17CC — so a chunk starting
with U+17CC is classified into the robat bucket, which is reassembled
after the register shifters and before coeng clusters and dependent
vowels. -/
theorem c4_amended :
    (∀ rest : List Nat, classify (0x17CC :: rest) = some Bucket.robat) ∧
      reorderSyll [0x1780, 0x17CC, 0x17B6] = [0x1780, 0x17CC, 0x17B6] :=
  ⟨fun _ => rfl, by decide⟩

/-- C5 counterexample: on KA followed by ZWSP (U+200B) regularization
is the identity and no fusion applies, yet the output is shorter: the
zero-width chunk matches none of the six buckets and is dropped. -/
theorem c5_counterexample :
    regularizeText [0x1780, 0x200B] = [0x1780, 0x200B] ∧
      (reorderText [0x1780, 0x200B]).length ≠
        ([0x1780, 0x200B] : List Nat).length := by decide

/-- C6 counterexample: the fusion sources overlap each other
(U+17B8 U+17C1 overlaps U+17C1 U+17B8), so the replacement order is
observable: on the reassembled syllable KA U+17B8 U+17C1 U+17B8 the
implemented order yields KA U+17B8 U+17BE while applying the second
fusion first yields KA U+17BE U+17B8. -/
theorem c6_counterexample :
    fuseSpecOrder [0x1780, 0x17B8, 0x17C1, 0x17B8] ≠
        fuse [0x1780, 0x17B8, 0x17C1, 0x17B8] ∧
      reorderSyll [0x1780, 0x17B8, 0x17C1, 0x17B8] =
        fuse [0x1780, 0x17B8, 0x17C1, 0x17B8] := by decide

/-- C8: a syllable of length at most 1, or one whose first code point
is not a consonant or independent vowel, is returned unchanged. -/
theorem c8_identity (s : List Nat) :
    (s.length ≤ 1 → reorderSyll s = s) ∧
      (∀ c t, s = c :: t → isConsOrIndep c = false → reorderSyll s = s) := by
  constructor
  · intro h
    match s, h with
    | [], _ => rfl
    | [_], _ => rfl
  · intro c t hs hc
    subst hs
    match t with
    | [] => rfl
    | d :: rest => simp [reorderSyll, hc]

/-- Witness for C8 at a concrete non-Khmer two-character input. -/
theorem c8_identity_witness :
    reorderSyll [0x41, 0x42] = [0x41, 0x42] :=
  (c8_identity [0x41, 0x42]).2 0x41 [0x42] rfl (by decide)

end KhmerSyllableReorder
